import Mathlib

/-!
Shallow embedding of `src/main.py` (the parallel chunked-aggregation
engine of the BRC repository) and verification of the claims about it.

The `mmap` view of the input file is modelled as a total function
`Mem := Nat → Nat` from byte offsets to byte values (out-of-range reads
never occur on the executions studied here, and `fileMem` pads with 0
exactly like `Scanner.get_byte`); group keys are kept as their raw byte
lists (`read_name` decodes to UTF-8 in the source, and decoding is
injective on the valid byte sequences used as dict keys, so a table
keyed by byte lists is isomorphic); Python `dict`s, which preserve
insertion order, are modelled as association lists.
-/

namespace BRC

/-- Byte-addressed read-only view of the input file (the `mmap` object). -/
abbrev Mem := Nat → Nat

/-- Raw bytes of a group key (the city name). -/
abbrev Name := List Nat

/-- `MIN_TEMP = -999` (main.py line 11). -/
def MIN_TEMP : Int := -999

/-- `MAX_TEMP = 999` (main.py line 12). -/
def MAX_TEMP : Int := 999

/-- `SEGMENT_SIZE = 1 << 21` (main.py line 15). -/
def SEGMENT_SIZE : Nat := 1 <<< 21

/-- The `Result` record of main.py lines 18-24: running aggregate of one
group.  `sum` holds the scaled-by-10 fixed-point sum; `name` is `None`
until assigned. -/
structure Result where
  min : Int
  max : Int
  sum : Int
  count : Nat
  name : Option Name
deriving Repr, DecidableEq

/-- `Result.__init__` (lines 19-24): min starts at `MAX_TEMP`, max at
`MIN_TEMP`, sum and count at 0, name at `None`. -/
def Result.init : Result :=
  { min := MAX_TEMP, max := MIN_TEMP, sum := 0, count := 0, name := none }

/-- `Result.accumulate` (lines 30-34) as a pure function: the mutated
`self` is returned.  `self.name` is left unchanged. -/
def Result.accumulate (self other : Result) : Result :=
  { self with
    min := Min.min self.min other.min
    max := Max.max self.max other.max
    sum := self.sum + other.sum
    count := self.count + other.count }

/-- Fuel-indexed scan of `Scanner.find_delimiter`'s `while` loop; the
fuel is always instantiated with `e - pos`, which bounds the iteration
count. -/
def findDelimAux (mm : Mem) (e : Nat) : Nat → Nat → Option Nat
  | 0, _ => none
  | fuel + 1, pos =>
    if pos < e then
      if mm pos = 59 then some pos else findDelimAux mm e fuel (pos + 1)
    else none

/-- `Scanner.find_delimiter` (lines 53-60): position of the next `;`
in `[pos, e)`, or `none` for the sentinel `-1`. -/
def find_delimiter (mm : Mem) (pos e : Nat) : Option Nat :=
  findDelimAux mm e (e - pos) pos

/-- Fuel-indexed scan of `Scanner.find_newline`'s `while` loop. -/
def findNewlineAux (mm : Mem) (e : Nat) : Nat → Nat → Nat
  | 0, _ => e
  | fuel + 1, pos =>
    if pos < e then
      if mm pos = 10 then pos else findNewlineAux mm e fuel (pos + 1)
    else e

/-- `Scanner.find_newline` (lines 62-69): position of the next `\n` in
`[pos, e)`, or `e` itself when none occurs (the source returns
`self.end`, not `-1`). -/
def find_newline (mm : Mem) (pos e : Nat) : Nat :=
  findNewlineAux mm e (e - pos) pos

/-- Fuel-indexed version of the digit-accumulation `while` loop of
`Scanner.scan_number` (lines 86-88). -/
def scanDigitsAux (mm : Mem) (e : Nat) : Nat → Nat → Nat → Nat × Nat
  | 0, pos, acc => (acc, pos)
  | fuel + 1, pos, acc =>
    if pos < e ∧ 48 ≤ mm pos ∧ mm pos ≤ 57 then
      scanDigitsAux mm e fuel (pos + 1) (acc * 10 + (mm pos - 48))
    else (acc, pos)

/-- The digits-before-decimal loop of `scan_number`, returning the
accumulated value and the position of the first non-digit. -/
def scanDigits (mm : Mem) (e pos acc : Nat) : Nat × Nat :=
  scanDigitsAux mm e (e - pos) pos acc

/-- The decimal-point part of `Scanner.scan_number` (lines 90-106),
applied to the digit-loop outcome `vp = (value, pos)`: consume an
optional `.` plus one digit and scale; when no `.` follows, multiply by
10 (fixed-point); when a `.` is consumed but no digit follows, the
source leaves the value unscaled. -/
def scanNumberTail (mm : Mem) (e : Nat) (sign : Int) (vp : Nat × Nat) : Int × Nat :=
  if vp.2 < e ∧ mm vp.2 = 46 then
    let pos4 := vp.2 + 1
    if pos4 < e ∧ 48 ≤ mm pos4 ∧ mm pos4 ≤ 57 then
      (sign * ((vp.1 * 10 + (mm pos4 - 48) : Nat) : Int), pos4 + 1)
    else (sign * (vp.1 : Int), pos4)
  else (sign * ((vp.1 * 10 : Nat) : Int), vp.2)

/-- `Scanner.scan_number` (lines 71-106) as a pure function: invoked
with the cursor on the `;`, it skips that byte, consumes an optional
`-`, runs the digit loop, and finishes with the decimal-point part,
returning the signed scaled-by-10 value together with the final cursor
position. -/
def scan_number (mm : Mem) (pos0 e : Nat) : Int × Nat :=
  let pos1 := pos0 + 1
  let sign : Int := if mm pos1 = 45 then -1 else 1
  let pos2 := if mm pos1 = 45 then pos1 + 1 else pos1
  scanNumberTail mm e sign (scanDigits mm e pos2 0)

/-- `Scanner.read_name` (lines 108-110): the byte slice
`mm[s:e]` (kept as raw bytes, see the header note on UTF-8). -/
def read_name (mm : Mem) (s e : Nat) : Name :=
  (List.range (e - s)).map (fun i => mm (s + i))

/-- A worker's local table (a Python `dict`, insertion-ordered). -/
abbrev Table := List (Name × Result)

/-- Lookup in a table: first entry with the given key (`dict` access /
`in` test — dict keys are unique so first = only). -/
def tblFind : Table → Name → Option Result
  | [], _ => none
  | (k, r) :: t, k' => if k' = k then some r else tblFind t k'

/-- In-place overwrite of the value stored at key `k`
(`results[name] = ...` on a present key keeps its position). -/
def tblUpdate (t : Table) (k : Name) (r : Result) : Table :=
  t.map (fun p => if p.1 = k then (p.1, r) else p)

/-- The fresh-record branch of `process_segment` (lines 153-160):
`Result()` with min = max = sum = temperature, count = 1, name set. -/
def newResult (name : Name) (temperature : Int) : Result :=
  { min := temperature, max := temperature, sum := temperature
    count := 1, name := some name }

/-- The update branch of `process_segment` (lines 161-166). -/
def updateResult (r : Result) (temperature : Int) : Result :=
  { r with
    min := min r.min temperature
    max := max r.max temperature
    sum := r.sum + temperature
    count := r.count + 1 }

/-- One iteration's table effect in the `process_segment` loop:
insert a fresh record or update the existing one (lines 152-166). -/
def tblUpsert (tbl : Table) (name : Name) (temperature : Int) : Table :=
  match tblFind tbl name with
  | none => tbl ++ [(name, newResult name temperature)]
  | some r => tblUpdate tbl name (updateResult r temperature)

/-- Fuel-indexed form of the `while scanner.has_next()` loop of
`process_segment` (lines 134-166).  Each iteration finds the next `;`
(breaking when there is none), reads the name, parses the value,
advances past the next newline (`find_newline` returns `e` when there
is none, so the cursor always becomes `nl + 1`), and upserts the
record. -/
def segLoopAux (mm : Mem) (e : Nat) : Nat → Nat → Table → Table
  | 0, _, tbl => tbl
  | fuel + 1, pos, tbl =>
    if pos < e then
      match find_delimiter mm pos e with
      | none => tbl
      | some delim =>
        let name := read_name mm pos delim
        let tp := scan_number mm delim e
        let nl := find_newline mm tp.2 e
        segLoopAux mm e fuel (nl + 1) (tblUpsert tbl name tp.1)
    else tbl

/-- The start-boundary adjustment of `process_segment` (lines 117-122):
when the segment does not start at `file_start`, skip to one past the
first newline found in the next `min 1000 (file_end - segment_start)`
bytes (`find_newline` returns the window end when no newline occurs, and
the source's `nl_pos >= 0` test is always true). -/
def adjust_start (mm : Mem) (segment_start file_start file_end : Nat) : Nat :=
  if file_start < segment_start then
    find_newline mm segment_start (min (segment_start + 1000) file_end) + 1
  else segment_start

/-- The end-boundary adjustment of `process_segment` (lines 124-129):
when the segment does not end at `file_end`, replace the end with one
past the first newline found from `max segment_start (segment_end - 1000)`
(the in-source comment says "last newline before segment_end", but
`find_newline` scans forward and returns the first).  `segment_start`
here is the already-adjusted start, as in the source. -/
def adjust_end (mm : Mem) (segment_start segment_end file_end : Nat) : Nat :=
  if segment_end < file_end then
    find_newline mm (max segment_start (segment_end - 1000)) segment_end + 1
  else segment_end

/-- `process_segment` (lines 112-168): adjust both boundaries, then run
the scanning loop over `[s, e)` starting from an empty table.  The fuel
`e - s` suffices because every iteration strictly advances the cursor
(proved below). -/
def process_segment (mm : Mem) (segment_start segment_end file_start file_end : Nat) :
    Table :=
  let s := adjust_start mm segment_start file_start file_end
  let e := adjust_end mm s segment_end file_end
  segLoopAux mm e (e - s) s []

/-- The body of the inner `for` loop of `merge_results` (lines 175-179):
copy an unseen key's record, otherwise `accumulate` into the stored
record. -/
def mergeStep (merged : Table) (p : Name × Result) : Table :=
  match tblFind merged p.1 with
  | none => merged ++ [p]
  | some r => tblUpdate merged p.1 (r.accumulate p.2)

/-- Folding one worker table into the accumulator (the inner loop of
`merge_results` over `results.items()`). -/
def mergeTable (merged results : Table) : Table :=
  results.foldl mergeStep merged

/-- `merge_results` (lines 170-181): fold all worker tables into an
initially empty table. -/
def merge_results (all_results : List Table) : Table :=
  all_results.foldl mergeTable []

/-- The naive segment list of `calculate_average` (lines 192-196):
`range(0, file_size, SEGMENT_SIZE)` produces
`⌈file_size / SEGMENT_SIZE⌉` starts. -/
def segmentsList (file_size : Nat) : List (Nat × Nat) :=
  (List.range ((file_size + SEGMENT_SIZE - 1) / SEGMENT_SIZE)).map
    (fun k => (k * SEGMENT_SIZE, min (k * SEGMENT_SIZE + SEGMENT_SIZE) file_size))

/-- A concrete file as a `Mem`: byte `i` of the list, 0 past the end
(like `Scanner.get_byte`). -/
def fileMem (bs : List Nat) : Mem := fun i => bs.getD i 0

/-- The value pipeline of `calculate_average` (lines 183-206) up to the
merged table handed to the reporting loop.  `none` models the
exception path: on a 0-byte file `mmap.mmap(f.fileno(), 0, ...)` raises
`ValueError` ("cannot mmap an empty file", a documented CPython
contract), the bare `except` at line 226 catches it and returns exit
code 1, and `output.txt` — opened only later, at line 209 — is never
created.  On a non-empty file the segments are processed and merged;
the float formatting of the Reporter (lines 208-224) is outside this
model. -/
def calculate_average (file : List Nat) : Option Table :=
  if file.length = 0 then none
  else
    some (merge_results ((segmentsList file.length).map
      (fun p => process_segment (fileMem file) p.1 p.2 0 file.length)))

/-- The four aggregate fields of a `Result`, the data the spec's notion
of table equality compares (`name` is bookkeeping). -/
def Result.stats (r : Result) : Int × Int × Int × Nat :=
  (r.min, r.max, r.sum, r.count)

/-- The combine operation on the four aggregate fields. -/
def combineStats (p q : Int × Int × Int × Nat) : Int × Int × Int × Nat :=
  (min p.1 q.1, max p.2.1 q.2.1, p.2.2.1 + q.2.2.1, p.2.2.2 + q.2.2.2)

/-- Key-wise combination of optional aggregate entries (absent keys are
neutral). -/
def combineOpt : Option (Int × Int × Int × Nat) → Option (Int × Int × Int × Nat) →
    Option (Int × Int × Int × Nat)
  | none, y => y
  | some x, none => some x
  | some x, some y => some (combineStats x y)

/-- The aggregate content of a table: key ↦ the four aggregate fields. -/
def statsView (t : Table) : Name → Option (Int × Int × Int × Nat) :=
  fun k => (tblFind t k).map Result.stats

/-- Total number of records accounted for by a table. -/
def totalCount (t : Table) : Nat := (t.map (fun p => p.2.count)).sum

/-- The record invariant of the spec: at least one contribution and the
mean lies between min and max. -/
def ResultInv (r : Result) : Prop :=
  1 ≤ r.count ∧ (r.min : ℚ) ≤ (r.sum : ℚ) / (r.count : ℚ) ∧
    (r.sum : ℚ) / (r.count : ℚ) ≤ (r.max : ℚ)

/-- Value denoted by a digit string, most significant first. -/
def digitsVal (ds : List Nat) : Nat := ds.foldl (fun a d => a * 10 + d) 0

/-- Concrete file `"aa;1\nbb;2\ncc;3\n"`. -/
def demoBytes : List Nat := [97, 97, 59, 49, 10, 98, 98, 59, 50, 10, 99, 99, 59, 51, 10]

/-- Concrete file `"BadLine\naa;1\n"` (one malformed line, one valid). -/
def badBytes : List Nat := [66, 97, 100, 76, 105, 110, 101, 10, 97, 97, 59, 49, 10]

/-- Concrete file `"aa;1\n"` (the previous file with the malformed line
removed). -/
def goodBytes : List Nat := [97, 97, 59, 49, 10]

/-- A 4 MiB file in which every line is `"aaaa\n"`: byte `i` is a
newline exactly when `i % 5 = 4`. -/
def seamMem : Mem := fun i => if i % 5 = 4 then 10 else 97

/-- Size of the `seamMem` file: exactly two `SEGMENT_SIZE` segments. -/
def seamSize : Nat := 4194304

/-- The per-worker ranges actually scanned: each naive segment after
`process_segment`'s boundary adjustment. -/
def effectiveRanges (mm : Mem) (S : Nat) : List (Nat × Nat) :=
  (segmentsList S).map (fun p =>
    let s := adjust_start mm p.1 0 S
    (s, adjust_end mm s p.2 S))

/-- Whether byte `b` falls inside some effective range. -/
def coveredBy (mm : Mem) (S b : Nat) : Bool :=
  (effectiveRanges mm S).any (fun q => decide (q.1 ≤ b ∧ b < q.2))

/-- Byte length of a value field matching the numeric grammar
`-?[0-9]+(\.[0-9])?`: an optional `-`, the digits, and an optional
`.`-plus-digit pair. -/
def numLen (neg : Bool) (ds : List Nat) (frac : Option Nat) : Nat :=
  (if neg then 1 else 0) + ds.length + (if frac.isSome then 2 else 0)

/-- Every record stored in a table satisfies the record invariant. -/
def TableInv (t : Table) : Prop := ∀ p ∈ t, ResultInv p.2

/-- A record whose values lie outside the `[-999, 999]` scaled
temperature window (producible from the input `"x;100.0\n"`). -/
def oversizedRecord : Result :=
  { min := 1000, max := 1000, sum := 1000, count := 1, name := none }

/-- A one-group worker table, for concrete merge tests. -/
def wTable1 : Table := [([97], newResult [97] 10)]

/-- Another one-group worker table, for concrete merge tests. -/
def wTable2 : Table := [([98], newResult [98] 20)]

/-! ### Bounds on the scanner helpers -/

theorem findNewlineAux_le (mm : Mem) (e : Nat) :
    ∀ fuel pos, findNewlineAux mm e fuel pos ≤ e := by
  intro fuel
  induction fuel with
  | zero => intro pos; exact Nat.le_refl e
  | succ f ih =>
    intro pos
    by_cases h : pos < e
    · by_cases h10 : mm pos = 10
      · simp only [findNewlineAux, h, if_true, h10]; omega
      · simp only [findNewlineAux, h, if_true, h10, if_false]; exact ih (pos + 1)
    · simp [findNewlineAux, h]

theorem findNewlineAux_ge (mm : Mem) (e : Nat) :
    ∀ fuel pos, pos ≤ e → pos ≤ findNewlineAux mm e fuel pos := by
  intro fuel
  induction fuel with
  | zero => intro pos h; exact h
  | succ f ih =>
    intro pos h
    by_cases hlt : pos < e
    · by_cases h10 : mm pos = 10
      · simp [findNewlineAux, hlt, h10]
      · simp only [findNewlineAux, hlt, if_true, h10, if_false]
        exact Nat.le_trans (Nat.le_succ pos) (ih (pos + 1) hlt)
    · simp [findNewlineAux, hlt]; exact h

theorem find_newline_le (mm : Mem) (pos e : Nat) : find_newline mm pos e ≤ e :=
  findNewlineAux_le mm e (e - pos) pos

theorem find_newline_ge_min (mm : Mem) (pos e : Nat) :
    min pos e ≤ find_newline mm pos e := by
  by_cases h : pos ≤ e
  · rw [min_eq_left h]
    exact findNewlineAux_ge mm e (e - pos) pos h
  · have h0 : e - pos = 0 := by omega
    unfold find_newline
    rw [h0]
    simp [findNewlineAux]

theorem findDelimAux_some (mm : Mem) (e : Nat) :
    ∀ fuel pos d, findDelimAux mm e fuel pos = some d → pos ≤ d ∧ d < e := by
  intro fuel
  induction fuel with
  | zero => intro pos d h; exact absurd h (by simp [findDelimAux])
  | succ f ih =>
    intro pos d h
    by_cases hlt : pos < e
    · by_cases h59 : mm pos = 59
      · simp only [findDelimAux, hlt, if_true, h59] at h
        cases h; exact ⟨Nat.le_refl _, hlt⟩
      · simp only [findDelimAux, hlt, if_true, h59, if_false] at h
        have := ih (pos + 1) d h
        omega
    · simp [findDelimAux, hlt] at h

theorem find_delimiter_some {mm : Mem} {pos e d : Nat}
    (h : find_delimiter mm pos e = some d) : pos ≤ d ∧ d < e :=
  findDelimAux_some mm e (e - pos) pos d h

theorem scanDigitsAux_ge (mm : Mem) (e : Nat) :
    ∀ fuel pos acc, pos ≤ (scanDigitsAux mm e fuel pos acc).2 := by
  intro fuel
  induction fuel with
  | zero => intro pos acc; exact Nat.le_refl pos
  | succ f ih =>
    intro pos acc
    by_cases h : pos < e ∧ 48 ≤ mm pos ∧ mm pos ≤ 57
    · simp only [scanDigitsAux, if_pos h]
      exact Nat.le_trans (Nat.le_succ pos) (ih (pos + 1) _)
    · simp only [scanDigitsAux, if_neg h]; exact Nat.le_refl pos

theorem scanNumberTail_snd_ge (mm : Mem) (e : Nat) (sign : Int) (vp : Nat × Nat) :
    vp.2 ≤ (scanNumberTail mm e sign vp).2 := by
  unfold scanNumberTail
  by_cases hdot : vp.2 < e ∧ mm vp.2 = 46
  · simp only [if_pos hdot]
    by_cases hdig : vp.2 + 1 < e ∧ 48 ≤ mm (vp.2 + 1) ∧ mm (vp.2 + 1) ≤ 57
    · simp only [if_pos hdig]; omega
    · simp only [if_neg hdig]; omega
  · simp only [if_neg hdot]; omega

theorem scan_number_snd_ge (mm : Mem) (pos0 e : Nat) :
    pos0 + 1 ≤ (scan_number mm pos0 e).2 := by
  unfold scan_number
  by_cases h45 : mm (pos0 + 1) = 45
  · simp only [h45, if_true]
    have h1 : pos0 + 1 + 1 ≤ (scanDigits mm e (pos0 + 1 + 1) 0).2 :=
      scanDigitsAux_ge mm e _ _ 0
    have h2 := scanNumberTail_snd_ge mm e (-1) (scanDigits mm e (pos0 + 1 + 1) 0)
    omega
  · simp only [h45, if_false]
    have h1 : pos0 + 1 ≤ (scanDigits mm e (pos0 + 1) 0).2 :=
      scanDigitsAux_ge mm e _ _ 0
    have h2 := scanNumberTail_snd_ge mm e 1 (scanDigits mm e (pos0 + 1) 0)
    omega

/-- Each loop iteration that finds a delimiter strictly advances the
cursor: the next position `find_newline (scan_number ...).2 + 1`
exceeds the current one. -/
theorem seg_advance {mm : Mem} {e pos delim : Nat} (hpos : pos < e)
    (hd : find_delimiter mm pos e = some delim) :
    pos < find_newline mm (scan_number mm delim e).2 e + 1 := by
  obtain ⟨hpd, _⟩ := find_delimiter_some hd
  have h1 : delim + 1 ≤ (scan_number mm delim e).2 := scan_number_snd_ge mm delim e
  have h2 : min ((scan_number mm delim e).2) e ≤
      find_newline mm ((scan_number mm delim e).2) e := find_newline_ge_min mm _ e
  have h3 : pos + 1 ≤ min ((scan_number mm delim e).2) e :=
    le_min (by omega) (by omega)
  omega

/-- Any fuel at least `e - pos` gives the scanning loop the same
result: the loop terminates within `e - pos` iterations. -/
theorem segLoopAux_fuel (mm : Mem) (e : Nat) :
    ∀ f₁ f₂ pos tbl, e - pos ≤ f₁ → e - pos ≤ f₂ →
      segLoopAux mm e f₁ pos tbl = segLoopAux mm e f₂ pos tbl := by
  intro f₁
  induction f₁ with
  | zero =>
    intro f₂ pos tbl h1 _
    have hpe : ¬ pos < e := by omega
    cases f₂ with
    | zero => rfl
    | succ f => simp [segLoopAux, hpe]
  | succ f ih =>
    intro f₂ pos tbl h1 h2
    by_cases hpe : pos < e
    · cases f₂ with
      | zero => omega
      | succ f₂' =>
        simp only [segLoopAux, hpe, if_true]
        cases hdel : find_delimiter mm pos e with
        | none => rfl
        | some delim =>
          have hadv := seg_advance hpe hdel
          exact ih f₂' _ _ (by omega) (by omega)
    · cases f₂ with
      | zero => simp [segLoopAux, hpe]
      | succ f₂' => simp [segLoopAux, hpe]

/-! ### The digit loop and the numeric grammar (C7) -/

theorem scanDigitsAux_spec (mm : Mem) (e : Nat) :
    ∀ (ds : List Nat) (q acc fuel : Nat),
      (∀ i, i < ds.length → mm (q + i) = ds.getD i 0 + 48) →
      (∀ d ∈ ds, d < 10) →
      q + ds.length ≤ e →
      (q + ds.length = e ∨
        ¬(48 ≤ mm (q + ds.length) ∧ mm (q + ds.length) ≤ 57)) →
      e - q ≤ fuel →
      scanDigitsAux mm e fuel q acc =
        (ds.foldl (fun a d => a * 10 + d) acc, q + ds.length) := by
  intro ds
  induction ds with
  | nil =>
    intro q acc fuel _ _ _ hstop _
    rcases hstop with hq | hnd
    · cases fuel with
      | zero => simp [scanDigitsAux]
      | succ f =>
        have hlt : ¬ q < e := by simp at hq; omega
        simp [scanDigitsAux, hlt]
    · cases fuel with
      | zero => simp [scanDigitsAux]
      | succ f =>
        simp only [List.length_nil, Nat.add_zero] at hnd
        have hcond : ¬(q < e ∧ 48 ≤ mm q ∧ mm q ≤ 57) := by
          intro hc
          exact hnd ⟨hc.2.1, hc.2.2⟩
        simp [scanDigitsAux, hcond]
  | cons d ds ih =>
    intro q acc fuel hb hd hle hstop hfuel
    have hlen : (d :: ds).length = ds.length + 1 := List.length_cons d ds
    have hq : q < e := by rw [hlen] at hle; omega
    obtain ⟨f, rfl⟩ : ∃ f, fuel = f + 1 := ⟨fuel - 1, by omega⟩
    have hmq : mm q = d + 48 := by
      have h0 := hb 0 (by simp)
      simpa using h0
    have hd0 : d < 10 := hd d (List.mem_cons_self _ _)
    have hcond : q < e ∧ 48 ≤ mm q ∧ mm q ≤ 57 := ⟨hq, by omega, by omega⟩
    have harg : acc * 10 + (mm q - 48) = acc * 10 + d := by omega
    have hshift : q + (d :: ds).length = q + 1 + ds.length := by
      rw [hlen]; omega
    have hb' : ∀ i, i < ds.length → mm (q + 1 + i) = ds.getD i 0 + 48 := by
      intro i hi
      have := hb (i + 1) (by rw [hlen]; omega)
      have harith : q + (i + 1) = q + 1 + i := by omega
      rw [harith] at this
      simpa using this
    have hd' : ∀ x ∈ ds, x < 10 := fun x hx => hd x (List.mem_cons_of_mem _ hx)
    have hle' : q + 1 + ds.length ≤ e := by rw [← hshift]; exact hle
    have hstop' : q + 1 + ds.length = e ∨
        ¬(48 ≤ mm (q + 1 + ds.length) ∧ mm (q + 1 + ds.length) ≤ 57) := by
      rw [← hshift]; exact hstop
    simp only [scanDigitsAux, if_pos hcond]
    rw [harg, ih (q + 1) (acc * 10 + d) f hb' hd' hle' hstop' (by omega)]
    simp only [List.foldl_cons]
    congr 1
    omega

theorem scanDigits_spec (mm : Mem) (e : Nat) (ds : List Nat) (q acc : Nat)
    (hb : ∀ i, i < ds.length → mm (q + i) = ds.getD i 0 + 48)
    (hd : ∀ d ∈ ds, d < 10)
    (hle : q + ds.length ≤ e)
    (hstop : q + ds.length = e ∨
      ¬(48 ≤ mm (q + ds.length) ∧ mm (q + ds.length) ≤ 57)) :
    scanDigits mm e q acc =
      (ds.foldl (fun a d => a * 10 + d) acc, q + ds.length) :=
  scanDigitsAux_spec mm e ds q acc (e - q) hb hd hle hstop (Nat.le_refl _)

theorem scanNumberTail_spec (mm : Mem) (e : Nat) (sign : Int) (v m : Nat)
    (frac : Option Nat)
    (hfrac : ∀ f, frac = some f → f < 10 ∧ mm m = 46 ∧ mm (m + 1) = f + 48)
    (hend : m + (if frac.isSome then 2 else 0) ≤ e)
    (hterm : m + (if frac.isSome then 2 else 0) = e ∨
      mm (m + (if frac.isSome then 2 else 0)) = 10) :
    scanNumberTail mm e sign (v, m) =
      (sign * ((v * 10 + frac.getD 0 : Nat) : Int),
        m + (if frac.isSome then 2 else 0)) := by
  cases frac with
  | none =>
    have hz : (if (none : Option Nat).isSome then 2 else 0) = 0 := rfl
    have hz' : m + (if (none : Option Nat).isSome then 2 else 0) = m := by
      rw [hz]
      exact Nat.add_zero m
    rw [hz'] at hterm ⊢
    have hc : ¬(m < e ∧ mm m = 46) := by
      rintro ⟨h1, h2⟩
      rcases hterm with h | h
      · omega
      · rw [h2] at h; omega
    unfold scanNumberTail
    dsimp only
    rw [if_neg hc]
    simp [Option.getD]
  | some f =>
    obtain ⟨hf10, h46, hdig⟩ := hfrac f rfl
    have hz : m + (if (some f).isSome then 2 else 0) = m + 2 := rfl
    rw [hz] at hend hterm ⊢
    have hc : m < e ∧ mm m = 46 := ⟨by omega, h46⟩
    unfold scanNumberTail
    dsimp only
    rw [if_pos hc]
    have hc2 : m + 1 < e ∧ 48 ≤ mm (m + 1) ∧ mm (m + 1) ≤ 57 := by
      rw [hdig]; exact ⟨by omega, by omega, by omega⟩
    rw [if_pos hc2, hdig]
    have hsub : f + 48 - 48 = f := by omega
    rw [hsub]
    rfl

/-- C7: on a value field matching the numeric grammar
`-?[0-9]+(\.[0-9])?` followed by a line terminator or the end of the
range, `scan_number` invoked at the delimiter position returns exactly
the scaled integer 10 × v — the sign applied to ten times the integer
part plus the single fractional digit (0 when absent) — and leaves the
cursor immediately after the last consumed byte.  The field occupies
bytes `pos+1 .. pos+numLen-1`: an optional `-` (byte 45), the digit
bytes of `ds` (each `48+d`), and optionally `.` (byte 46) plus one
digit byte. -/
theorem claim_c7_scan_number_grammar (mm : Mem) (pos e : Nat) (neg : Bool)
    (ds : List Nat) (frac : Option Nat)
    (hne : ds ≠ [])
    (hdig : ∀ d ∈ ds, d < 10)
    (hsign : neg = true → mm (pos + 1) = 45)
    (hdigits : ∀ i, i < ds.length →
      mm (pos + 1 + (if neg then 1 else 0) + i) = ds.getD i 0 + 48)
    (hfrac : ∀ f, frac = some f → f < 10 ∧
      mm (pos + 1 + (if neg then 1 else 0) + ds.length) = 46 ∧
      mm (pos + 1 + (if neg then 1 else 0) + ds.length + 1) = f + 48)
    (hend : pos + 1 + numLen neg ds frac ≤ e)
    (hterm : pos + 1 + numLen neg ds frac = e ∨
      mm (pos + 1 + numLen neg ds frac) = 10) :
    scan_number mm pos e =
      ((if neg then -1 else 1) *
          ((digitsVal ds * 10 + frac.getD 0 : Nat) : Int),
        pos + 1 + numLen neg ds frac) := by
  obtain ⟨d0, ds', rfl⟩ := List.exists_cons_of_ne_nil hne
  have hkey : pos + 1 + numLen neg (d0 :: ds') frac =
      pos + 1 + (if neg then 1 else 0) + (d0 :: ds').length +
        (if frac.isSome then 2 else 0) := by
    unfold numLen; omega
  rw [hkey] at hend hterm ⊢
  cases neg with
  | false =>
    have hA : pos + 1 + (if (false : Bool) = true then 1 else 0) = pos + 1 := rfl
    rw [hA] at hdigits hfrac hend hterm ⊢
    have hS : (if (false : Bool) = true then (-1 : Int) else 1) = 1 := rfl
    rw [hS]
    have hstop : pos + 1 + (d0 :: ds').length = e ∨
        ¬(48 ≤ mm (pos + 1 + (d0 :: ds').length) ∧
          mm (pos + 1 + (d0 :: ds').length) ≤ 57) := by
      cases frac with
      | none =>
        have hz : pos + 1 + (d0 :: ds').length +
            (if (none : Option Nat).isSome then 2 else 0) =
            pos + 1 + (d0 :: ds').length := rfl
        rw [hz] at hterm
        rcases hterm with h | h
        · exact Or.inl h
        · exact Or.inr (fun hc => by omega)
      | some f =>
        obtain ⟨_, h46, _⟩ := hfrac f rfl
        exact Or.inr (fun hc => by omega)
    have hstart : mm (pos + 1) = d0 + 48 := by
      have h0 := hdigits 0 (by simp)
      simpa using h0
    have hd0 : d0 < 10 := hdig d0 (List.mem_cons_self _ _)
    have h45 : ¬ mm (pos + 1) = 45 := by omega
    unfold scan_number
    dsimp only
    rw [if_neg h45, if_neg h45]
    have hscan : scanDigits mm e (pos + 1) 0 =
        (digitsVal (d0 :: ds'), pos + 1 + (d0 :: ds').length) :=
      scanDigits_spec mm e (d0 :: ds') (pos + 1) 0 hdigits hdig
        (by omega) hstop
    rw [hscan,
      scanNumberTail_spec mm e 1 (digitsVal (d0 :: ds'))
        (pos + 1 + (d0 :: ds').length) frac hfrac hend hterm]
  | true =>
    have hA : pos + 1 + (if (true : Bool) = true then 1 else 0) = pos + 1 + 1 := rfl
    rw [hA] at hdigits hfrac hend hterm ⊢
    have hS : (if (true : Bool) = true then (-1 : Int) else 1) = -1 := rfl
    rw [hS]
    have hstop : pos + 1 + 1 + (d0 :: ds').length = e ∨
        ¬(48 ≤ mm (pos + 1 + 1 + (d0 :: ds').length) ∧
          mm (pos + 1 + 1 + (d0 :: ds').length) ≤ 57) := by
      cases frac with
      | none =>
        have hz : pos + 1 + 1 + (d0 :: ds').length +
            (if (none : Option Nat).isSome then 2 else 0) =
            pos + 1 + 1 + (d0 :: ds').length := rfl
        rw [hz] at hterm
        rcases hterm with h | h
        · exact Or.inl h
        · exact Or.inr (fun hc => by omega)
      | some f =>
        obtain ⟨_, h46, _⟩ := hfrac f rfl
        exact Or.inr (fun hc => by omega)
    have h45 : mm (pos + 1) = 45 := hsign rfl
    unfold scan_number
    dsimp only
    rw [if_pos h45, if_pos h45]
    have hscan : scanDigits mm e (pos + 1 + 1) 0 =
        (digitsVal (d0 :: ds'), pos + 1 + 1 + (d0 :: ds').length) :=
      scanDigits_spec mm e (d0 :: ds') (pos + 1 + 1) 0 hdigits hdig
        (by omega) hstop
    rw [hscan,
      scanNumberTail_spec mm e (-1) (digitsVal (d0 :: ds'))
        (pos + 1 + 1 + (d0 :: ds').length) frac hfrac hend hterm]

/-- Witness for C7: the field `"-12.3"` of `"x;-12.3\n"`, scanned from
the delimiter at position 1, yields the scaled value `-123` with the
cursor at 7 (just past the `3`). -/
theorem claim_c7_witness :
    scan_number (fileMem [120, 59, 45, 49, 50, 46, 51, 10]) 1 8 = (-123, 7) := by
  have h := claim_c7_scan_number_grammar
    (fileMem [120, 59, 45, 49, 50, 46, 51, 10]) 1 8 true [1, 2] (some 3)
    (by decide) (by decide) (fun _ => rfl)
    (by
      intro i hi
      have : i = 0 ∨ i = 1 := by simp at hi; omega
      rcases this with rfl | rfl <;> rfl)
    (by
      intro f hf
      cases hf
      exact ⟨by omega, rfl, rfl⟩)
    (by decide)
    (Or.inr rfl)
  rw [h]
  rfl

/-- C1: joint processing of the segments of a partition does NOT always
reproduce the single forward scan.  The code is evaluated at the
failing input `"aa;1\nbb;2\ncc;3\n"` split at byte 7: the two worker
tables account for 2 records in total while the single-threaded
reference scan (`process_segment` over the whole file, where no
boundary adjustment fires) counts 3 — the record `bb;2` at the chunk
seam is dropped. -/
theorem claim_c1_seam_drops_record :
    totalCount (merge_results [process_segment (fileMem demoBytes) 0 7 0 15,
        process_segment (fileMem demoBytes) 7 15 0 15]) = 2 ∧
    totalCount (process_segment (fileMem demoBytes) 0 15 0 15) = 3 :=
  ⟨rfl, rfl⟩

/-- C2: the effective ranges do NOT tile `[0, S)`.  The code is
evaluated at a 4 MiB file of 5-byte lines: the two naive
`SEGMENT_SIZE` ranges become `[0, 2096155)` and `[2097155, 4194304)`
after `process_segment`'s boundary adjustment, so byte `2096155` (and
the 999 following bytes) belongs to no range — the end adjustment
rewinds to the FIRST newline of the trailing 1000-byte window. -/
theorem claim_c2_ranges_leave_gap :
    2096155 < seamSize ∧
    effectiveRanges seamMem seamSize = [(0, 2096155), (2097155, 4194304)] ∧
    coveredBy seamMem seamSize 2096155 = false :=
  ⟨by decide, rfl, rfl⟩

/-- C3: on an empty (0-byte) input, the run takes the error path, not
the empty-output path: `mmap.mmap` raises `ValueError` on an empty
file, the bare `except` returns exit code 1, and `output.txt` is never
created (it is only opened after merging).  The model returns `none`
for this path. -/
theorem claim_c3_empty_input_error_path : calculate_average [] = none := rfl

/-- C4: a malformed line is NOT skipped.  The code is evaluated at the
failing input `"BadLine\naa;1\n"`: `find_delimiter` searches past the
line terminator, so the malformed line and the following valid line
fuse into the single composite key `"BadLine\naa"`; the group `"aa"`,
present when the malformed line is removed (`"aa;1\n"`), is absent. -/
theorem claim_c4_malformed_line_not_skipped :
    process_segment (fileMem badBytes) 0 13 0 13 =
      [([66, 97, 100, 76, 105, 110, 101, 10, 97, 97],
        newResult [66, 97, 100, 76, 105, 110, 101, 10, 97, 97] 10)] ∧
    tblFind (process_segment (fileMem badBytes) 0 13 0 13) [97, 97] = none ∧
    tblFind (process_segment (fileMem goodBytes) 0 5 0 5) [97, 97] =
      some (newResult [97, 97] 10) :=
  ⟨rfl, rfl, rfl⟩

/-- C10: the scanning loop of `process_segment` terminates.  First, on
any byte content each iteration that finds a delimiter strictly
advances the cursor (even when the line fails to parse); second, the
loop is a stable function of the fuel from `e - pos` onward, i.e. it
reaches its final table after finitely many (at most `e - pos`)
iterations. -/
theorem claim_c10_loop_terminates :
    (∀ (mm : Mem) (e pos delim : Nat), pos < e →
      find_delimiter mm pos e = some delim →
      pos < find_newline mm (scan_number mm delim e).2 e + 1) ∧
    (∀ (mm : Mem) (e fuel pos : Nat) (tbl : Table), e - pos ≤ fuel →
      segLoopAux mm e fuel pos tbl = segLoopAux mm e (e - pos) pos tbl) :=
  ⟨fun _ _ _ _ h hd => seg_advance h hd,
   fun mm e fuel pos tbl h =>
     segLoopAux_fuel mm e fuel (e - pos) pos tbl h (Nat.le_refl _)⟩

/-- C6: combining with the freshly constructed `Result()` is NOT the
identity on every record with `count ≥ 1`: the source materializes the
identity with `min = MAX_TEMP = 999` and `max = MIN_TEMP = -999`
rather than `±∞`, so a record holding the value 1000 (e.g. from the
line `"x;100.0"`, which `scan_number` accepts) has its min clamped to
999. -/
theorem claim_c6_counterexample :
    1 ≤ oversizedRecord.count ∧
    oversizedRecord.accumulate Result.init ≠ oversizedRecord := by
  decide

/-- C6 (amended): for every record `a` with `count ≥ 1` whose min is at
most `MAX_TEMP = 999` and whose max is at least `MIN_TEMP = -999` —
i.e. values inside the materialized identity's window — combining `a`
with the freshly constructed `Result()` returns `a` exactly (all four
aggregate fields, and the name, unchanged). -/
theorem claim_c6_amended (a : Result) (hc : 1 ≤ a.count)
    (hmin : a.min ≤ MAX_TEMP) (hmax : MIN_TEMP ≤ a.max) :
    a.accumulate Result.init = a := by
  obtain ⟨mn, mx, sm, ct, nm⟩ := a
  dsimp only at hmin hmax
  show Result.mk (Min.min mn MAX_TEMP) (Max.max mx MIN_TEMP) (sm + 0) (ct + 0) nm =
    Result.mk mn mx sm ct nm
  rw [min_eq_left hmin, max_eq_left hmax, add_zero, Nat.add_zero]

/-- Witness for the amended C6 at a concrete in-window record. -/
theorem claim_c6_witness :
    (1 ≤ (newResult [97] 10).count ∧ (newResult [97] 10).min ≤ MAX_TEMP ∧
      MIN_TEMP ≤ (newResult [97] 10).max) ∧
    (newResult [97] 10).accumulate Result.init = newResult [97] 10 :=
  ⟨⟨by decide, by decide, by decide⟩,
   claim_c6_amended (newResult [97] 10) (by decide) (by decide) (by decide)⟩

/-! ### The record invariant (C9) -/

theorem resultInv_iff (r : Result) :
    ResultInv r ↔ 1 ≤ r.count ∧ r.min * (r.count : Int) ≤ r.sum ∧
      r.sum ≤ r.max * (r.count : Int) := by
  unfold ResultInv
  constructor
  · rintro ⟨h1, h2, h3⟩
    have hc : (0 : ℚ) < (r.count : ℚ) := by
      have : 0 < r.count := h1
      exact_mod_cast this
    refine ⟨h1, ?_, ?_⟩
    · have := (le_div_iff₀ hc).mp h2
      exact_mod_cast this
    · have := (div_le_iff₀ hc).mp h3
      exact_mod_cast this
  · rintro ⟨h1, h2, h3⟩
    have hc : (0 : ℚ) < (r.count : ℚ) := by
      have : 0 < r.count := h1
      exact_mod_cast this
    refine ⟨h1, (le_div_iff₀ hc).mpr ?_, (div_le_iff₀ hc).mpr ?_⟩
    · exact_mod_cast h2
    · exact_mod_cast h3

theorem resultInv_newResult (name : Name) (t : Int) :
    ResultInv (newResult name t) := by
  rw [resultInv_iff]
  simp [newResult]

theorem resultInv_updateResult {r : Result} (t : Int) (h : ResultInv r) :
    ResultInv (updateResult r t) := by
  rw [resultInv_iff] at h ⊢
  obtain ⟨h1, h2, h3⟩ := h
  have hc0 : (0 : Int) ≤ (r.count : Int) := Int.natCast_nonneg _
  refine ⟨by simp only [updateResult]; omega, ?_, ?_⟩
  · simp only [updateResult]
    push_cast
    have ha : min r.min t * (r.count : Int) ≤ r.min * (r.count : Int) :=
      mul_le_mul_of_nonneg_right (min_le_left _ _) hc0
    have hb : min r.min t ≤ t := min_le_right _ _
    nlinarith
  · simp only [updateResult]
    push_cast
    have ha : r.max * (r.count : Int) ≤ max r.max t * (r.count : Int) :=
      mul_le_mul_of_nonneg_right (le_max_left _ _) hc0
    have hb : t ≤ max r.max t := le_max_right _ _
    nlinarith

theorem resultInv_accumulate {a b : Result} (ha : ResultInv a)
    (hb : ResultInv b) : ResultInv (a.accumulate b) := by
  rw [resultInv_iff] at ha hb ⊢
  obtain ⟨ha1, ha2, ha3⟩ := ha
  obtain ⟨hb1, hb2, hb3⟩ := hb
  have hca : (0 : Int) ≤ (a.count : Int) := Int.natCast_nonneg _
  have hcb : (0 : Int) ≤ (b.count : Int) := Int.natCast_nonneg _
  refine ⟨by simp only [Result.accumulate]; omega, ?_, ?_⟩
  · simp only [Result.accumulate]
    push_cast
    have h1 : min a.min b.min * (a.count : Int) ≤ a.min * (a.count : Int) :=
      mul_le_mul_of_nonneg_right (min_le_left _ _) hca
    have h2 : min a.min b.min * (b.count : Int) ≤ b.min * (b.count : Int) :=
      mul_le_mul_of_nonneg_right (min_le_right _ _) hcb
    nlinarith
  · simp only [Result.accumulate]
    push_cast
    have h1 : a.max * (a.count : Int) ≤ max a.max b.max * (a.count : Int) :=
      mul_le_mul_of_nonneg_right (le_max_left _ _) hca
    have h2 : b.max * (b.count : Int) ≤ max a.max b.max * (b.count : Int) :=
      mul_le_mul_of_nonneg_right (le_max_right _ _) hcb
    nlinarith

theorem tblFind_mem : ∀ (t : Table) (k : Name) (r : Result),
    tblFind t k = some r → (k, r) ∈ t := by
  intro t
  induction t with
  | nil => intro k r h; simp [tblFind] at h
  | cons p t ih =>
    intro k r h
    obtain ⟨pk, pr⟩ := p
    by_cases hk : k = pk
    · subst hk
      simp only [tblFind, if_pos rfl] at h
      cases h
      exact List.mem_cons_self _ _
    · simp only [tblFind, if_neg hk] at h
      exact List.mem_cons_of_mem _ (ih k r h)

theorem tableInv_upsert {tbl : Table} (h : TableInv tbl) (name : Name)
    (t : Int) : TableInv (tblUpsert tbl name t) := by
  unfold tblUpsert
  cases hf : tblFind tbl name with
  | none =>
    intro p hp
    rcases List.mem_append.mp hp with h1 | h2
    · exact h p h1
    · simp only [List.mem_singleton] at h2
      subst h2
      exact resultInv_newResult name t
  | some r =>
    have hr : ResultInv r := h _ (tblFind_mem tbl name r hf)
    intro p hp
    unfold tblUpdate at hp
    rcases List.mem_map.mp hp with ⟨q, hq, rfl⟩
    by_cases hqk : q.1 = name
    · simp only [hqk, if_pos rfl]
      exact resultInv_updateResult t hr
    · simp only [if_neg hqk]
      exact h q hq

theorem tableInv_segLoop (mm : Mem) (e : Nat) :
    ∀ fuel pos tbl, TableInv tbl → TableInv (segLoopAux mm e fuel pos tbl) := by
  intro fuel
  induction fuel with
  | zero => intro pos tbl h; exact h
  | succ f ih =>
    intro pos tbl h
    by_cases hpe : pos < e
    · simp only [segLoopAux, hpe, if_true]
      cases hdel : find_delimiter mm pos e with
      | none => exact h
      | some delim => exact ih _ _ (tableInv_upsert h _ _)
    · simp only [segLoopAux, hpe, if_false]
      exact h

theorem tableInv_process_segment (mm : Mem) (s e fs fe : Nat) :
    TableInv (process_segment mm s e fs fe) := by
  unfold process_segment
  exact tableInv_segLoop _ _ _ _ _ (fun p hp => absurd hp (List.not_mem_nil p))

theorem tableInv_mergeStep {m : Table} {p : Name × Result}
    (hm : TableInv m) (hp : ResultInv p.2) : TableInv (mergeStep m p) := by
  unfold mergeStep
  cases hf : tblFind m p.1 with
  | none =>
    intro q hq
    rcases List.mem_append.mp hq with h1 | h2
    · exact hm q h1
    · simp only [List.mem_singleton] at h2
      subst h2
      exact hp
  | some r =>
    have hr : ResultInv r := hm _ (tblFind_mem m p.1 r hf)
    intro q hq
    unfold tblUpdate at hq
    rcases List.mem_map.mp hq with ⟨w, hw, rfl⟩
    by_cases hwk : w.1 = p.1
    · simp only [hwk, if_pos rfl]
      exact resultInv_accumulate hr hp
    · simp only [if_neg hwk]
      exact hm w hw

theorem tableInv_foldl_mergeStep : ∀ (t : Table) (m : Table),
    TableInv m → TableInv t → TableInv (t.foldl mergeStep m) := by
  intro t
  induction t with
  | nil => intro m hm _; exact hm
  | cons p t ih =>
    intro m hm ht
    exact ih (mergeStep m p) (tableInv_mergeStep hm (ht p (List.mem_cons_self _ _)))
      (fun q hq => ht q (List.mem_cons_of_mem _ hq))

theorem tableInv_foldl_mergeTable : ∀ (ts : List Table) (m : Table),
    TableInv m → (∀ t ∈ ts, TableInv t) →
    TableInv (List.foldl mergeTable m ts) := by
  intro ts
  induction ts with
  | nil => intro m hm _; exact hm
  | cons t ts ih =>
    intro m hm hts
    exact ih (mergeTable m t)
      (tableInv_foldl_mergeStep t m hm (hts t (List.mem_cons_self _ _)))
      (fun u hu => hts u (List.mem_cons_of_mem _ hu))

theorem tableInv_merge_results (ts : List Table)
    (h : ∀ t ∈ ts, TableInv t) : TableInv (merge_results ts) :=
  tableInv_foldl_mergeTable ts []
    (fun p hp => absurd hp (List.not_mem_nil p)) h

/-- C9: every record ever stored satisfies `count ≥ 1` and
`min ≤ sum/count ≤ max`: the freshly inserted record satisfies the
invariant; the per-record update step preserves it; `accumulate`
preserves it; every record found in a `process_segment` table
satisfies it (no `count = 0` record is ever stored, since `some r`
forces `r` to be one of the inserted/updated records); and every
record found in a `merge_results` of invariant-satisfying tables
satisfies it. -/
theorem claim_c9_record_invariant :
    (∀ (name : Name) (t : Int), ResultInv (newResult name t)) ∧
    (∀ (r : Result) (t : Int), ResultInv r → ResultInv (updateResult r t)) ∧
    (∀ a b : Result, ResultInv a → ResultInv b → ResultInv (a.accumulate b)) ∧
    (∀ (mm : Mem) (s e fs fe : Nat) (k : Name) (r : Result),
      tblFind (process_segment mm s e fs fe) k = some r → ResultInv r) ∧
    (∀ ts : List Table, (∀ t ∈ ts, TableInv t) →
      ∀ (k : Name) (r : Result), tblFind (merge_results ts) k = some r →
        ResultInv r) :=
  ⟨resultInv_newResult,
   fun _ t h => resultInv_updateResult t h,
   fun _ _ ha hb => resultInv_accumulate ha hb,
   fun mm s e fs fe k r hf =>
     tableInv_process_segment mm s e fs fe _ (tblFind_mem _ k r hf),
   fun ts h k r hf => tableInv_merge_results ts h _ (tblFind_mem _ k r hf)⟩

/-- Witness for C9: the invariant of the record the reference scan of
`"aa;1\nbb;2\ncc;3\n"` stores under key `"aa"`. -/
theorem claim_c9_witness :
    tblFind (process_segment (fileMem demoBytes) 0 15 0 15) [97, 97] =
      some (newResult [97, 97] 10) ∧
    ResultInv (newResult [97, 97] 10) :=
  ⟨rfl, claim_c9_record_invariant.2.2.2.1 (fileMem demoBytes) 0 15 0 15
    [97, 97] (newResult [97, 97] 10) rfl⟩

/-! ### Merge as a commutative-associative fold (C5) -/

theorem stats_accumulate (a b : Result) :
    (a.accumulate b).stats = combineStats a.stats b.stats := rfl

theorem combineStats_comm (p q : Int × Int × Int × Nat) :
    combineStats p q = combineStats q p := by
  obtain ⟨a, b, c, d⟩ := p
  obtain ⟨a', b', c', d'⟩ := q
  simp [combineStats, min_comm, max_comm, add_comm]

theorem combineStats_assoc (p q w : Int × Int × Int × Nat) :
    combineStats (combineStats p q) w = combineStats p (combineStats q w) := by
  obtain ⟨a, b, c, d⟩ := p
  obtain ⟨a', b', c', d'⟩ := q
  obtain ⟨a'', b'', c'', d''⟩ := w
  simp [combineStats, min_assoc, max_assoc, add_assoc]

theorem combineOpt_none_right (x : Option (Int × Int × Int × Nat)) :
    combineOpt x none = x := by
  cases x <;> rfl

theorem combineOpt_right_comm (x y z : Option (Int × Int × Int × Nat)) :
    combineOpt (combineOpt x y) z = combineOpt (combineOpt x z) y := by
  cases x with
  | none =>
    cases y with
    | none => cases z <;> rfl
    | some b =>
      cases z with
      | none => rfl
      | some c => simp only [combineOpt]; rw [combineStats_comm]
  | some a =>
    cases y with
    | none => cases z <;> rfl
    | some b =>
      cases z with
      | none => rfl
      | some c =>
        simp only [combineOpt]
        rw [combineStats_assoc, combineStats_assoc, combineStats_comm b c]

theorem tblFind_append_of_none {a : Table} {k : Name}
    (h : tblFind a k = none) (b : Table) :
    tblFind (a ++ b) k = tblFind b k := by
  induction a with
  | nil => rfl
  | cons p t ih =>
    obtain ⟨pk, pr⟩ := p
    by_cases hk : k = pk
    · subst hk; simp [tblFind] at h
    · simp only [tblFind, if_neg hk] at h
      simpa only [List.cons_append, tblFind, if_neg hk] using ih h

theorem tblFind_append_of_some {a : Table} {k : Name} {r : Result}
    (h : tblFind a k = some r) (b : Table) :
    tblFind (a ++ b) k = some r := by
  induction a with
  | nil => simp [tblFind] at h
  | cons p t ih =>
    obtain ⟨pk, pr⟩ := p
    by_cases hk : k = pk
    · subst hk
      simp only [tblFind, if_pos rfl] at h
      simpa only [List.cons_append, tblFind, if_pos rfl] using h
    · simp only [tblFind, if_neg hk] at h
      simpa only [List.cons_append, tblFind, if_neg hk] using ih h

theorem tblFind_cons (pk : Name) (pr : Result) (t : Table) (k : Name) :
    tblFind ((pk, pr) :: t) k = if k = pk then some pr else tblFind t k := rfl

theorem tblUpdate_cons (pk : Name) (pr : Result) (t : Table) (k : Name)
    (r' : Result) :
    tblUpdate ((pk, pr) :: t) k r' =
      (if pk = k then (pk, r') else (pk, pr)) :: tblUpdate t k r' := rfl

theorem tblFind_update_self {t : Table} {k : Name} {r : Result}
    (h : tblFind t k = some r) (r' : Result) :
    tblFind (tblUpdate t k r') k = some r' := by
  induction t with
  | nil => simp [tblFind] at h
  | cons p t ih =>
    obtain ⟨pk, pr⟩ := p
    rw [tblUpdate_cons]
    by_cases hk : k = pk
    · subst hk
      rw [if_pos rfl, tblFind_cons, if_pos rfl]
    · have hk' : ¬ pk = k := fun hh => hk hh.symm
      rw [tblFind_cons, if_neg hk] at h
      rw [if_neg hk', tblFind_cons, if_neg hk]
      exact ih h

theorem tblFind_update_ne {k k' : Name} (hk : k' ≠ k) (t : Table) (r' : Result) :
    tblFind (tblUpdate t k r') k' = tblFind t k' := by
  induction t with
  | nil => rfl
  | cons p t ih =>
    obtain ⟨pk, pr⟩ := p
    rw [tblUpdate_cons]
    by_cases hpk : pk = k
    · subst hpk
      rw [if_pos rfl, tblFind_cons, tblFind_cons, if_neg hk, if_neg hk]
      exact ih
    · rw [if_neg hpk, tblFind_cons, tblFind_cons]
      by_cases hk' : k' = pk
      · rw [if_pos hk', if_pos hk']
      · rw [if_neg hk', if_neg hk']
        exact ih

theorem tblFind_eq_none {t : Table} {k : Name}
    (h : k ∉ t.map Prod.fst) : tblFind t k = none := by
  induction t with
  | nil => rfl
  | cons p t ih =>
    obtain ⟨pk, pr⟩ := p
    simp only [List.map_cons, List.mem_cons] at h
    push_neg at h
    simp only [tblFind, if_neg h.1]
    exact ih h.2

theorem statsView_mergeStep (m : Table) (pk : Name) (pr : Result) (k : Name) :
    statsView (mergeStep m (pk, pr)) k =
      if k = pk then combineOpt (statsView m k) (some pr.stats)
      else statsView m k := by
  unfold mergeStep
  dsimp only
  cases hf : tblFind m pk with
  | none =>
    by_cases hk : k = pk
    · subst hk
      have h1 : tblFind (m ++ [(k, pr)]) k = some pr := by
        rw [tblFind_append_of_none hf, tblFind_cons, if_pos rfl]
      unfold statsView
      rw [h1, hf, if_pos rfl]
      rfl
    · have h1 : tblFind (m ++ [(pk, pr)]) k = tblFind m k := by
        cases hm : tblFind m k with
        | none =>
          rw [tblFind_append_of_none hm, tblFind_cons, if_neg hk]
          rfl
        | some r => rw [tblFind_append_of_some hm]
      unfold statsView
      rw [h1, if_neg hk]
  | some r =>
    by_cases hk : k = pk
    · subst hk
      have h1 : tblFind (tblUpdate m k (r.accumulate pr)) k =
          some (r.accumulate pr) := tblFind_update_self hf _
      unfold statsView
      rw [h1, hf, if_pos rfl]
      simp only [Option.map_some']
      rw [stats_accumulate]
      rfl
    · have h1 := tblFind_update_ne hk m (r.accumulate pr)
      unfold statsView
      rw [h1, if_neg hk]

theorem statsView_mergeTable : ∀ (b a : Table),
    (b.map Prod.fst).Nodup → ∀ k,
    statsView (mergeTable a b) k = combineOpt (statsView a k) (statsView b k) := by
  intro b
  induction b with
  | nil =>
    intro a _ k
    simp [mergeTable, statsView, tblFind, combineOpt_none_right]
  | cons p b ih =>
    intro a hnd k
    obtain ⟨pk, pr⟩ := p
    have hnd1 : (pk :: b.map Prod.fst).Nodup := by simpa using hnd
    have hnd2 := List.nodup_cons.mp hnd1
    have hstep : mergeTable a ((pk, pr) :: b) = mergeTable (mergeStep a (pk, pr)) b := rfl
    rw [hstep, ih (mergeStep a (pk, pr)) hnd2.2 k, statsView_mergeStep]
    by_cases hk : k = pk
    · subst hk
      have hb : statsView b k = none := by
        unfold statsView
        rw [tblFind_eq_none hnd2.1]
        rfl
      have hcons : statsView ((k, pr) :: b) k = some pr.stats := by
        unfold statsView
        rw [tblFind_cons, if_pos rfl]
        rfl
      rw [if_pos rfl, hb, combineOpt_none_right, hcons]
    · have hcons : statsView ((pk, pr) :: b) k = statsView b k := by
        unfold statsView
        rw [tblFind_cons, if_neg hk]
      rw [if_neg hk, hcons]

theorem statsView_merge_fold : ∀ (ts : List Table) (m : Table),
    (∀ t ∈ ts, (t.map Prod.fst).Nodup) → ∀ k,
    statsView (List.foldl mergeTable m ts) k =
      List.foldl (fun g t => combineOpt g (statsView t k)) (statsView m k) ts := by
  intro ts
  induction ts with
  | nil => intro m _ k; rfl
  | cons t ts ih =>
    intro m hnd k
    have h1 : statsView (mergeTable m t) k = combineOpt (statsView m k) (statsView t k) :=
      statsView_mergeTable t m (hnd t (List.mem_cons_self _ _)) k
    calc statsView (List.foldl mergeTable m (t :: ts)) k
        = statsView (List.foldl mergeTable (mergeTable m t) ts) k := rfl
      _ = List.foldl (fun g u => combineOpt g (statsView u k))
            (statsView (mergeTable m t) k) ts :=
          ih (mergeTable m t) (fun u hu => hnd u (List.mem_cons_of_mem _ hu)) k
      _ = List.foldl (fun g u => combineOpt g (statsView u k))
            (statsView m k) (t :: ts) := by rw [h1]; rfl

/-- C5: `accumulate` is associative (exactly) and commutative on the
four aggregate fields, and consequently `merge_results` applied to any
permutation of a list of worker tables (tables with unique keys, as
`dict`s always have) yields a table with the same keys and the same
min/max/sum/count per key. -/
theorem claim_c5_merge_order_independent :
    (∀ a b c : Result, (a.accumulate b).accumulate c = a.accumulate (b.accumulate c)) ∧
    (∀ a b : Result, (a.accumulate b).stats = (b.accumulate a).stats) ∧
    (∀ ts ts' : List Table, (∀ t ∈ ts, (t.map Prod.fst).Nodup) → ts.Perm ts' →
      statsView (merge_results ts) = statsView (merge_results ts')) := by
  refine ⟨?_, ?_, ?_⟩
  · intro a b c
    simp [Result.accumulate, min_assoc, max_assoc, add_assoc]
  · intro a b
    simp [Result.stats, Result.accumulate, min_comm, max_comm, add_comm]
  · intro ts ts' hnd hperm
    funext k
    have hnd' : ∀ t ∈ ts', (t.map Prod.fst).Nodup :=
      fun t ht => hnd t (hperm.mem_iff.mpr ht)
    unfold merge_results
    rw [statsView_merge_fold ts [] hnd k, statsView_merge_fold ts' [] hnd' k]
    haveI : RightCommutative
        (fun (g : Option (Int × Int × Int × Nat)) (t : Table) =>
          combineOpt g (statsView t k)) :=
      ⟨fun g t₁ t₂ => combineOpt_right_comm g (statsView t₁ k) (statsView t₂ k)⟩
    exact hperm.foldl_eq _

/-- Witness for C5: swapping two concrete worker tables leaves the
merged aggregate content unchanged. -/
theorem claim_c5_witness :
    (∀ t ∈ [wTable1, wTable2], (t.map Prod.fst).Nodup) ∧
    statsView (merge_results [wTable1, wTable2]) =
      statsView (merge_results [wTable2, wTable1]) :=
  ⟨by decide,
   claim_c5_merge_order_independent.2.2 [wTable1, wTable2] [wTable2, wTable1]
     (by decide) (List.Perm.swap wTable2 wTable1 [])⟩

/-- Witness for C10 at the concrete file `"aa;1\nbb;2\ncc;3\n"`. -/
theorem claim_c10_witness :
    ((0 : Nat) < 15 ∧ find_delimiter (fileMem demoBytes) 0 15 = some 2 ∧
      0 < find_newline (fileMem demoBytes)
        (scan_number (fileMem demoBytes) 2 15).2 15 + 1) ∧
    (15 - 0 ≤ 100 ∧ segLoopAux (fileMem demoBytes) 15 100 0 [] =
      segLoopAux (fileMem demoBytes) 15 (15 - 0) 0 []) :=
  ⟨⟨by decide, by decide,
    claim_c10_loop_terminates.1 (fileMem demoBytes) 15 0 2 (by decide) (by decide)⟩,
   ⟨by decide,
    claim_c10_loop_terminates.2 (fileMem demoBytes) 15 100 0 [] (by decide)⟩⟩

end BRC
